import Mathlib

/-!
Verification development for the RepoReaper Hybrid Code Retrieval Engine.

This file gives a shallow embedding, in Lean 4, of the core logic of the
repository:

* `app/services/vector_service.py` — `VectorStore.search_hybrid`,
  `VectorStore._rrf_fusion`, `VectorStore.reset` (hybrid retrieval with
  Reciprocal Rank Fusion);
* `app/services/chunking_service.py` — `UniversalChunker._chunk_python`,
  `_chunk_large_python_class`, `_fallback_chunking`;
* `app/utils/embedding.py` — `EmbeddingService.embed_batch`,
  `EmbeddingService.embed_text`;
* `app/utils/repo_lock.py` — `RepoLock.acquire` over the in-process
  (memory) backend.

Modelling conventions:

* Python floats are modelled as exact rationals (`ℚ`); the config constants
  `rrf_weight_vector = 1.0` and `rrf_weight_bm25 = 0.3` become `1` and
  `3 / 10`.  The claims under study are about the algebraic structure of the
  scoring, not IEEE-754 rounding.
* External collaborators (the embedding HTTP API, the Qdrant client, the
  BM25 scoring routine `BM25Okapi.get_scores`, the query tokenizer regex)
  are modelled as oracles (plain function parameters); the repository code
  that *consumes* them is translated statement by statement.
* Python exceptions that the source catches and converts to sentinel values
  (empty list, `False`, timeout flag) are modelled by those sentinel values
  directly; code paths that let exceptions escape are modelled with
  `Except`.
* Python's `sorted(..., reverse=True)` is a stable descending sort; it is
  modelled by Mathlib's `List.insertionSort` with the relation
  `fun a b => key b ≤ key a`, which computes the same list as any stable
  descending sort by that key.
-/

namespace RepoReaper

/-! ## Data model (`app/storage/base.py`)

`Document` carries `id`, `content` and `metadata`; of the metadata only the
`file` entry is consulted by the retrieval paths under study, so it is kept
as a plain field.  `SearchResult` is `{document, score, source}`. -/

structure Doc where
  id : String
  content : String
  file : String
  deriving DecidableEq, Repr

structure SRes where
  document : Doc
  score : ℚ
  source : String
  deriving DecidableEq, Repr

/-- Output dictionary of `VectorStore.search_hybrid` (step "4. 格式化输出"):
`{"id", "content", "file", "metadata", "score"}`; the metadata passthrough is
omitted as no claim consults it. -/
structure RDict where
  id : String
  content : String
  file : String
  score : ℚ
  deriving DecidableEq, Repr

/-! ## Configuration (`app/core/config.py`, `VectorServiceConfig`) -/

def rrfK : ℚ := 60
def rrfWeightVector : ℚ := 1
def rrfWeightBm25 : ℚ := 3 / 10
def searchOversample : Nat := 2
def defaultTopK : Nat := 3

/-! ## Stable descending sort

Python's `sorted(xs, key=f, reverse=True)` is stable: among equal keys the
original order is kept.  `List.insertionSort (fun a b => f b ≤ f a)` computes
exactly that list. -/

def sortDescBy {α : Type} (f : α → ℚ) (l : List α) : List α :=
  List.insertionSort (fun a b => f b ≤ f a) l

/-! ## RRF fusion (`VectorStore._rrf_fusion`)

The Python code accumulates scores in an insertion-ordered dict
`fused: Dict[str, {"result": SearchResult, "score": float}]`; a fresh key is
appended with score 0 and then incremented, an existing key keeps its stored
result and position and only its score is incremented.  We model the dict as
an association list in insertion order. -/

structure FusedEntry where
  result : SRes
  score : ℚ
  deriving DecidableEq, Repr

def entryKey (e : FusedEntry) : String := e.result.document.id

/-- One `fused[doc_id]["score"] += w` step (with the
`if doc_id not in fused` initialisation). -/
def addContrib : List FusedEntry → SRes → ℚ → List FusedEntry
  | [], r, w => [⟨r, w⟩]
  | e :: es, r, w =>
    if entryKey e = r.document.id then ⟨e.result, e.score + w⟩ :: es
    else e :: addContrib es r w

/-- The `for rank, result in enumerate(results): ...` loop of `_rrf_fusion`
for one candidate list with list weight `w`; `rank` is the running 0-based
index, the contribution is `w / (k + rank + 1)`. -/
def rrfAdd (w : ℚ) : Nat → List SRes → List FusedEntry → List FusedEntry
  | _, [], acc => acc
  | rank, r :: rs, acc =>
    rrfAdd w (rank + 1) rs (addContrib acc r (w / (rrfK + rank + 1)))

/-- `VectorStore._rrf_fusion(vector_results, bm25_results)`. -/
def rrfFusion (vectorResults bm25Results : List SRes) : List SRes :=
  let fused := rrfAdd rrfWeightBm25 0 bm25Results
      (rrfAdd rrfWeightVector 0 vectorResults [])
  (sortDescBy (fun e => e.score) fused).map
    (fun e => ⟨e.result.document, e.score, "hybrid"⟩)

/-! ## Store state and search (`VectorStore`)

`StoreState` is the per-session state that `search_hybrid` and `reset`
manipulate: the Qdrant collection (a list of stored points, each a document
with its embedding), the in-memory BM25 index (`None` until built; when
present, a function from query tokens to one score per stored document), the
in-memory document list, the indexed-file set and the session metadata. -/

structure StoreState where
  qdocs : List (Doc × List ℚ)
  bm25 : Option (List String → List ℚ)
  docStore : List Doc
  indexedFiles : List String
  repoUrl : Option String
  globalContext : List (String × String)

/-- External collaborators of `search_hybrid`: the embedding service
(`embed_text` returns `[]` on failure — `app/utils/embedding.py` line 151),
the vector-similarity scoring used by the Qdrant index, and the
`_tokenize` regex split. -/
structure Oracles where
  embedText : String → List ℚ
  sim : List ℚ → List ℚ → ℚ
  tokenize : String → List String

/-- `QdrantVectorStore.search` (`app/storage/qdrant_store.py` lines 372-427):
returns `[]` for an empty query embedding, otherwise the stored points ranked
by similarity descending, filtered by `score_threshold=0.0`, truncated to
`top_k`.  The nearest-neighbour ranking itself is the database's; it is
modelled as an exact ranking by the similarity oracle. -/
def qdrantSearch (sim : List ℚ → List ℚ → ℚ) (qdocs : List (Doc × List ℚ))
    (emb : List ℚ) (topK : Nat) : List SRes :=
  if emb = [] then []
  else
    (((sortDescBy (fun p => sim emb p.2) qdocs).filter
        (fun p => 0 ≤ sim emb p.2)).take topK).map
      (fun p => ⟨p.1, sim emb p.2, "vector"⟩)

/-- Step "1. 向量搜索" of `search_hybrid`: the vector candidate list
(`vector_results`), empty when the query embedding is empty. -/
def vectorCandidates (ors : Oracles) (st : StoreState) (q : String)
    (candidateK : Nat) : List SRes :=
  let queryEmbedding := ors.embedText q
  if queryEmbedding ≠ [] then qdrantSearch ors.sim st.qdocs queryEmbedding candidateK
  else []

/-- Step "2. BM25 搜索" of `search_hybrid`: no index or empty document list
gives `[]`; otherwise every document is scored, the indices are ranked by
score descending (stable, ties by index), truncated to `candidate_k`, and
only strictly positive scores are kept.  The BM25 index is always built with
one corpus entry per `_doc_store` entry, so the index lookup is total in all
reachable states; out-of-range indices (unreachable) yield no result. -/
def bm25Candidates (ors : Oracles) (st : StoreState) (q : String)
    (candidateK : Nat) : List SRes :=
  match st.bm25 with
  | none => []
  | some getScores =>
    if st.docStore = [] then []
    else
      let tokens0 := ors.tokenize q
      let tokens := if tokens0 = [] then [""] else tokens0
      let scores := getScores tokens
      let topIndices := (sortDescBy (fun i => scores.getD i 0)
          (List.range scores.length)).take candidateK
      topIndices.filterMap (fun idx =>
        if 0 < scores.getD idx 0 then
          match st.docStore[idx]? with
          | some doc => some ⟨doc, scores.getD idx 0, "bm25"⟩
          | none => none
        else none)

/-- Step "4. 格式化输出" of `search_hybrid`: one output dict per fused
result. -/
def toRDict (r : SRes) : RDict :=
  ⟨r.document.id, r.document.content, r.document.file, r.score⟩

/-- `VectorStore.search_hybrid(query, top_k)` (lines 437-508).  `top_k or
config.default_top_k` maps `0`/`None` to the default 3; `candidate_k =
top_k * config.search_oversample`. -/
def searchHybrid (ors : Oracles) (st : StoreState) (q : String) (topK : Nat) :
    List RDict :=
  let topK := if topK = 0 then defaultTopK else topK
  let candidateK := topK * searchOversample
  let vectorResults := vectorCandidates ors st q candidateK
  let bm25Results := bm25Candidates ors st q candidateK
  let fused := rrfFusion vectorResults bm25Results
  (fused.take topK).map toRDict

/-- `VectorStore.reset()` (lines 345-366): deletes the Qdrant collection and
re-creates it empty, removes the context and BM25-cache files, and clears
the in-memory state (`_bm25`, `_doc_store`, `_indexed_files`, `repo_url`,
`global_context`). -/
def reset (_st : StoreState) : StoreState :=
  { qdocs := []
    bm25 := none
    docStore := []
    indexedFiles := []
    repoUrl := none
    globalContext := [] }

/-! ## Chunker (`app/services/chunking_service.py`)

The Python parser (`ast.parse` / `ast.get_source_segment`) is abstracted:
its output is the input of the embedding.  A parsed module is a list of
top-level statements; each declaration node carries its exact source segment
and its 1-based `lineno`; a class body statement is an assignment (with its
segment), a method definition, or anything else.  `ast.get_docstring` is the
`docstring` field of `classDef` (the empty string models `None`, as the code
does with `or ""`). -/

inductive PyClassStmt : Type where
  | assign (src : String)
  | methodDef (name : String) (src : String) (lineno : Nat)
  | otherStmt
  deriving DecidableEq, Repr

inductive PyStmt : Type where
  | classDef (name : String) (body : List PyClassStmt) (src : String)
      (lineno : Nat) (docstring : String)
  | funcDef (name : String) (src : String) (lineno : Nat)
  | importStmt (src : String)
  | otherTop (src : String)
  deriving DecidableEq, Repr

structure ChunkingConfig where
  minChunkSize : Nat
  maxChunkSize : Nat
  fallbackLineSize : Nat
  maxContextChars : Nat
  deriving DecidableEq, Repr

/-- The defaults of `ChunkingConfig` in the source. -/
def defaultChunkingConfig : ChunkingConfig :=
  { minChunkSize := 50
    maxChunkSize := 2000
    fallbackLineSize := 100
    maxContextChars := 500 }

/-- `UniversalChunker._create_chunk`: a chunk is the content plus the
metadata dict `{"file", "type", "name", "start_line", "class"}`. -/
structure Chunk where
  content : String
  file : String
  type_ : String
  name : String
  startLine : Nat
  className : String
  deriving DecidableEq, Repr

def createChunk (content file type_ name : String) (startLine : Nat)
    (className : String) : Chunk :=
  ⟨content, file, type_, name, startLine, className⟩

/-! Python string primitives, implemented by structural recursion over the
character list so that concrete instances evaluate inside the kernel (the
core library's `String.trim`/`String.splitOn`/`String.replace` are
well-founded recursions over byte positions and do not reduce). -/

/-- Python's `str.strip()`: drop leading and trailing whitespace. -/
def pyStrip (s : String) : String :=
  ⟨((s.data.dropWhile Char.isWhitespace).reverse.dropWhile
    Char.isWhitespace).reverse⟩

/-- Python's `str.split('\n')` on the character list: always returns at
least one (possibly empty) piece; a separator at the end yields a trailing
empty piece. -/
def splitLinesList : List Char → List (List Char)
  | [] => [[]]
  | c :: cs =>
    match splitLinesList cs with
    | [] => [[]]
    | y :: ys => if c = '\n' then [] :: y :: ys else (c :: y) :: ys

/-- Python's `content.split('\n')`. -/
def pySplitLines (s : String) : List String :=
  (splitLinesList s.data).map String.mk

/-- `UniversalChunker._fallback_chunking`'s window loop
(`for i in range(0, len(lines), chunk_size)`), processing the remaining
lines with running line index `i`.  The first argument is structural fuel,
instantiated with the number of lines: with a positive window size each
step drops at least one line, so the fuel never runs out and the loop is
exactly Python's.  A window size of 0 makes the Python `range` raise
`ValueError`; the model returns `[]` for that invalid configuration (the
configured size is 100). -/
def fallbackLoop (file : String) (sz : Nat) :
    Nat → List String → Nat → List Chunk
  | _, [], _ => []
  | 0, _ :: _, _ => []
  | fuel + 1, l :: ls, i =>
    if sz = 0 then []
    else
      createChunk (String.intercalate "\n" ((l :: ls).take sz)) file
          "text_chunk" ("chunk_" ++ toString i) (i + 1) "" ::
        fallbackLoop file sz fuel ((l :: ls).drop sz) (i + sz)

/-- `UniversalChunker._fallback_chunking(content, file_path)`:
`content.split('\n')` then fixed-size line windows. -/
def fallbackChunking (cfg : ChunkingConfig) (content file : String) :
    List Chunk :=
  fallbackLoop file cfg.fallbackLineSize (pySplitLines content).length
    (pySplitLines content) 0

/-- The class-variable collection loop of `_chunk_large_python_class`:
assignments (with truthy segments) are collected until the first method
definition; other statements are skipped without stopping. -/
def collectClassVars : List PyClassStmt → List String
  | [] => []
  | .assign src :: rest =>
    if src = "" then collectClassVars rest else src :: collectClassVars rest
  | .methodDef _ _ _ :: _ => []
  | .otherStmt :: rest => collectClassVars rest

/-- The synthesized class-header of `_chunk_large_python_class`. -/
def classContextHeader (className : String) (body : List PyClassStmt)
    (docstring : String) : String :=
  let varsText0 := String.intercalate "\n    " (collectClassVars body)
  let varsText := if varsText0 = "" then varsText0 else "\n    " ++ varsText0
  "class " ++ className ++ ":" ++ varsText ++ "\n    \"\"\"" ++ docstring ++
    "\"\"\"\n    # ... (Parent Context)\n"

/-- `UniversalChunker._chunk_large_python_class(class_node, content,
file_path)` (lines 133-165): one `method` chunk per method of the class
body, each the synthesized header plus the method's source. -/
def chunkLargePythonClass (file className : String) (body : List PyClassStmt)
    (docstring : String) : List Chunk :=
  body.filterMap (fun s =>
    match s with
    | .methodDef name src lineno =>
      if src = "" then none
      else some (createChunk
        (classContextHeader className body docstring ++ "\n" ++ src)
        file "method" name lineno className)
    | _ => none)

/-- Step "A. 遍历与分类" of `_chunk_python`: one pass over the top-level
statements producing `(import_nodes, other_nodes, function_class_chunks)`,
in tree order. -/
def classifyPy (cfg : ChunkingConfig) (file : String) :
    List PyStmt → List String × List String × List Chunk
  | [] => ([], [], [])
  | n :: ns =>
    let (imps, oths, fcs) := classifyPy cfg file ns
    match n with
    | .classDef name body src lineno docstring =>
      if src = "" then (imps, oths, fcs)
      else if src.length ≤ cfg.maxChunkSize then
        (imps, oths, createChunk src file "class" name lineno name :: fcs)
      else
        (imps, oths, chunkLargePythonClass file name body docstring ++ fcs)
    | .funcDef name src lineno =>
      if src ≠ "" ∧ cfg.minChunkSize ≤ src.length then
        (imps, oths, createChunk src file "function" name lineno "" :: fcs)
      else (imps, oths, fcs)
    | .importStmt src =>
      if pyStrip src ≠ "" then (src :: imps, oths, fcs) else (imps, oths, fcs)
    | .otherTop src =>
      if pyStrip src ≠ "" then (imps, src :: oths, fcs) else (imps, oths, fcs)

/-- `UniversalChunker._chunk_python(content, file_path)` (lines 39-131) for a
successfully parsed module `tree` (a `SyntaxError` takes the fallback path in
`_chunk_python` itself and is outside this definition).  Steps B-F of the
source: context-header construction, header injection, global-context
overflow, pure-script fallback, and the final empty-output fallback.  The
`1.5 ×` script tolerance (`len > max_chunk_size * 1.5`) is the integer
condition `3 * max < 2 * len`. -/
def chunkPython (cfg : ChunkingConfig) (content : String) (tree : List PyStmt)
    (file : String) : List Chunk :=
  let ⟨importNodes, otherNodes, fcs0⟩ := classifyPy cfg file tree
  let othersText := pyStrip (String.intercalate "\n" otherNodes)
  let shouldInjectOthers := othersText.length ≤ cfg.maxContextChars
  let contextParts :=
    (if importNodes ≠ [] then [String.intercalate "\n" importNodes] else []) ++
      (if othersText ≠ "" ∧ shouldInjectOthers then [othersText] else [])
  let fullHeader0 := pyStrip (String.intercalate "\n" contextParts)
  let fullHeader :=
    if fullHeader0 ≠ "" then
      "# --- Context ---\n" ++ fullHeader0 ++ "\n# ---------------\n"
    else fullHeader0
  let fcChunks := fcs0.map (fun c => { c with content := fullHeader ++ c.content })
  if fcs0 = [] then
    let fullScript :=
      (if importNodes ≠ [] then String.intercalate "\n" importNodes ++ "\n"
       else "") ++ othersText
    if pyStrip fullScript ≠ "" then
      if cfg.maxChunkSize * 3 < fullScript.length * 2 then
        fallbackChunking cfg content file
      else [createChunk fullScript file "script" "main" 1 ""]
    else if pyStrip content ≠ "" then fallbackChunking cfg content file
    else []
  else
    (if othersText ≠ "" ∧ ¬ shouldInjectOthers then
        [createChunk othersText file "global_context" "globals" 1 ""]
      else []) ++ fcChunks

/-! Spec-side restatements of the classification pass, used to phrase the
theorems; `classifyPy_eq` below proves them equal to the source's loop. -/

def pyImports (tree : List PyStmt) : List String :=
  tree.filterMap (fun n =>
    match n with
    | .importStmt src => if pyStrip src ≠ "" then some src else none
    | _ => none)

def pyOthers (tree : List PyStmt) : List String :=
  tree.filterMap (fun n =>
    match n with
    | .otherTop src => if pyStrip src ≠ "" then some src else none
    | _ => none)

def pyDeclChunks (cfg : ChunkingConfig) (file : String)
    (tree : List PyStmt) : List Chunk :=
  tree.flatMap (fun n =>
    match n with
    | .classDef name body src lineno docstring =>
      if src = "" then []
      else if src.length ≤ cfg.maxChunkSize then
        [createChunk src file "class" name lineno name]
      else chunkLargePythonClass file name body docstring
    | .funcDef name src lineno =>
      if src ≠ "" ∧ cfg.minChunkSize ≤ src.length then
        [createChunk src file "function" name lineno ""]
      else []
    | _ => [])

/-- The source segments of the declaration statements that the classifier
keeps whole (used to state the reconstruction property). -/
def declSources (cfg : ChunkingConfig) (tree : List PyStmt) : List String :=
  tree.filterMap (fun n =>
    match n with
    | .classDef _ _ src _ _ =>
      if src = "" then none
      else if src.length ≤ cfg.maxChunkSize then some src else none
    | .funcDef _ src _ =>
      if src ≠ "" ∧ cfg.minChunkSize ≤ src.length then some src else none
    | _ => none)

/-! ## Embedding service (`app/utils/embedding.py`) -/

structure EmbeddingConfig where
  batchSize : Nat
  maxTextLength : Nat
  deriving DecidableEq, Repr

def defaultEmbeddingConfig : EmbeddingConfig :=
  { batchSize := 50, maxTextLength := 8000 }

/-- `EmbeddingService._preprocess_text`: newlines to spaces (a
single-character `str.replace`, modelled character-wise), strip, truncate to
`max_text_length` characters (a Python slice, modelled on the character
list). -/
def preprocessText (cfg : EmbeddingConfig) (t : String) : String :=
  let t := pyStrip ⟨t.data.map (fun c => if c = '\n' then ' ' else c)⟩
  if cfg.maxTextLength < t.length then ⟨t.data.take cfg.maxTextLength⟩ else t

/-- The batching slice loop `[texts[i:i+batch_size] for i in range(0, n,
batch_size)]`, with structural fuel instantiated with the list length (with
a positive batch size each step drops at least one element, so the fuel
never runs out).  A batch size of 0 makes the Python `range` raise; the
model returns `[]` for that invalid configuration (the configured size is
50). -/
def chunkBatchesFuel {α : Type} (sz : Nat) : Nat → List α → List (List α)
  | _, [] => []
  | 0, _ :: _ => []
  | fuel + 1, l :: ls =>
    if sz = 0 then []
    else (l :: ls).take sz :: chunkBatchesFuel sz fuel ((l :: ls).drop sz)

def chunkBatches {α : Type} (sz : Nat) (l : List α) : List (List α) :=
  chunkBatchesFuel sz l.length l

/-- `EmbeddingService.embed_batch(texts)` (lines 153-222).  The per-batch
request (`_embed_batch_with_semaphore`, which returns `(batch_index,
embeddings)` or raises) is the oracle `outcome`: `some embs` on success,
`none` on failure.  `asyncio.gather(..., return_exceptions=True)` collects
the outcomes in batch order; `sorted(results, key=...)` keys successes by
batch index and failures by `inf`, so the stable sort places all successes
(already in index order) before all failures; each failure contributes
`batch_size` empty vectors ("保守估计"); the result is padded or truncated
to the input length. -/
def embedBatch (cfg : EmbeddingConfig)
    (outcome : Nat → List String → Option (List (List ℚ)))
    (texts : List String) : List (List ℚ) :=
  if texts = [] then []
  else
    let processed := texts.map (preprocessText cfg)
    let batches := chunkBatches cfg.batchSize processed
    let results := batches.enum.map (fun p => (p.1, outcome p.1 p.2))
    let ordered := results.filter (fun p => p.2.isSome) ++
      results.filter (fun p => ¬ p.2.isSome)
    let embeddings := ordered.flatMap (fun p =>
      match p.2 with
      | some embs => embs
      | none => List.replicate cfg.batchSize [])
    if embeddings.length < texts.length then
      embeddings ++ List.replicate (texts.length - embeddings.length) []
    else if texts.length < embeddings.length then embeddings.take texts.length
    else embeddings

/-! ## Repo lock (`app/utils/repo_lock.py`)

The memory backend keeps one `asyncio.Lock` per key; `backend.acquire(key,
timeout)` waits for it under `asyncio.wait_for` and reports `False` on
timeout, `True` once the lock is held; `release` clears the per-key lock.
The lock table is a predicate `String → Bool` (true = currently held);
whether the wait finishes within the timeout is the oracle `acquiredInTime`.
The guarded body is an outcome oracle (`Except E α`); it does not touch the
lock table (the guarded code operates on the vector store). -/

def LockTable : Type := String → Bool

/-- The state change of a successful `MemoryLockBackend.acquire`. -/
def memAcquire (t : LockTable) (key : String) : LockTable :=
  fun k => if k = key then true else t k

/-- `MemoryLockBackend.release`: `if lock.locked(): lock.release()`. -/
def memRelease (t : LockTable) (key : String) : LockTable :=
  fun k => if k = key then false else t k

inductive LockErr (E : Type) : Type where
  | timeout
  | body (e : E)
  deriving DecidableEq

/-- `RepoLock.acquire(session_id, timeout)` used as `async with` around a
body (lines 350-374): `backend.acquire`; on failure raise `TimeoutError`;
otherwise run the body inside `try: yield / finally: backend.release`. -/
def repoLockAcquireRun {E α : Type} (acquiredInTime : Bool) (t : LockTable)
    (key : String) (bodyOutcome : Except E α) :
    Except (LockErr E) α × LockTable :=
  if acquiredInTime then
    let t1 := memAcquire t key
    let t2 := memRelease t1 key
    match bodyOutcome with
    | .ok a => (.ok a, t2)
    | .error e => (.error (.body e), t2)
  else (.error .timeout, t)

/-! ## General lemmas about the stable descending sort -/

theorem sortDescBy_perm {α : Type} (f : α → ℚ) (l : List α) :
    (sortDescBy f l).Perm l :=
  List.perm_insertionSort _ l

theorem sortDescBy_pairwise {α : Type} (f : α → ℚ) (l : List α) :
    (sortDescBy f l).Pairwise (fun a b => f b ≤ f a) := by
  haveI : IsTotal α (fun a b => f b ≤ f a) := ⟨fun a b => le_total (f b) (f a)⟩
  haveI : IsTrans α (fun a b => f b ≤ f a) :=
    ⟨fun _ _ _ h1 h2 => le_trans h2 h1⟩
  exact List.sorted_insertionSort _ l

theorem sortDescBy_eq_self {α : Type} (f : α → ℚ) (l : List α)
    (h : l.Pairwise (fun a b => f b < f a)) : sortDescBy f l = l :=
  List.Sorted.insertionSort_eq (List.Pairwise.imp (fun hab => le_of_lt hab) h)

/-! ## Lemmas about the fused dict of `_rrf_fusion` -/

def fusedKeys (l : List FusedEntry) : List String := l.map entryKey

/-- Score lookup by key in the fused association list (spec-side helper). -/
def lookupScore : List FusedEntry → String → Option ℚ
  | [], _ => none
  | e :: es, id => if entryKey e = id then some e.score else lookupScore es id

theorem lookupScore_isSome_iff (l : List FusedEntry) (id : String) :
    (lookupScore l id).isSome ↔ id ∈ fusedKeys l := by
  induction l with
  | nil => simp [lookupScore, fusedKeys]
  | cons e es ih =>
    rcases eq_or_ne (entryKey e) id with h | h
    · subst h
      simp [lookupScore, fusedKeys]
    · have h' : ¬ id = entryKey e := fun hc => h hc.symm
      simp [lookupScore, fusedKeys, h, h', ih]

theorem mem_of_lookupScore {l : List FusedEntry} {id : String} {s : ℚ}
    (h : lookupScore l id = some s) :
    ∃ e ∈ l, entryKey e = id ∧ e.score = s := by
  induction l with
  | nil => simp [lookupScore] at h
  | cons e es ih =>
    by_cases hk : entryKey e = id
    · rw [lookupScore, if_pos hk] at h
      exact ⟨e, List.mem_cons_self e es, hk, by simpa using h⟩
    · rw [lookupScore, if_neg hk] at h
      obtain ⟨e', he', hk', hs'⟩ := ih h
      exact ⟨e', List.mem_cons_of_mem _ he', hk', hs'⟩

theorem lookupScore_self {l : List FusedEntry} (hnd : (fusedKeys l).Nodup)
    {e : FusedEntry} (he : e ∈ l) :
    lookupScore l (entryKey e) = some e.score := by
  induction l with
  | nil => cases he
  | cons a as ih =>
    simp only [fusedKeys, List.map_cons, List.nodup_cons] at hnd
    rcases List.mem_cons.mp he with rfl | hmem
    · rw [lookupScore, if_pos rfl]
    · have hne : ¬ entryKey a = entryKey e := by
        intro hk
        have hmm : entryKey e ∈ List.map entryKey as :=
          List.mem_map_of_mem entryKey hmem
        rw [← hk] at hmm
        exact hnd.1 hmm
      rw [lookupScore, if_neg hne]
      exact ih hnd.2 hmem

theorem lookupScore_addContrib (l : List FusedEntry) (r : SRes) (w : ℚ)
    (id : String) :
    lookupScore (addContrib l r w) id =
      if id = r.document.id then some ((lookupScore l id).getD 0 + w)
      else lookupScore l id := by
  induction l with
  | nil =>
    by_cases hid : id = r.document.id
    · subst hid
      simp [addContrib, lookupScore, entryKey]
    · have hid' : ¬ r.document.id = id := fun h => hid h.symm
      simp [addContrib, lookupScore, entryKey, hid, hid']
  | cons e es ih =>
    by_cases hk : entryKey e = r.document.id
    · rw [addContrib, if_pos hk]
      by_cases hid : id = r.document.id
      · subst hid
        have hke : entryKey ⟨e.result, e.score + w⟩ = r.document.id := hk
        rw [lookupScore, if_pos hke, lookupScore, if_pos hk]
        simp
      · have hke : ¬ entryKey e = id := fun h => hid (h ▸ hk)
        have hke' : ¬ entryKey ⟨e.result, e.score + w⟩ = id := hke
        rw [lookupScore, if_neg hke', if_neg hid, lookupScore, if_neg hke]
    · rw [addContrib, if_neg hk]
      by_cases hke : entryKey e = id
      · have hid : ¬ id = r.document.id := fun h => hk (h ▸ hke)
        rw [lookupScore, if_pos hke, if_neg hid, lookupScore, if_pos hke]
      · rw [lookupScore, if_neg hke, ih, lookupScore, if_neg hke]

theorem fusedKeys_addContrib (l : List FusedEntry) (r : SRes) (w : ℚ) :
    fusedKeys (addContrib l r w) =
      if r.document.id ∈ fusedKeys l then fusedKeys l
      else fusedKeys l ++ [r.document.id] := by
  induction l with
  | nil => simp [addContrib, fusedKeys, entryKey]
  | cons e es ih =>
    by_cases hk : entryKey e = r.document.id
    · have hmem : r.document.id ∈ fusedKeys (e :: es) := by
        simp only [fusedKeys, List.map_cons, List.mem_cons]
        exact Or.inl hk.symm
      rw [addContrib, if_pos hk, if_pos hmem]
      simp [fusedKeys, entryKey]
    · rw [addContrib, if_neg hk]
      have hm : (r.document.id ∈ fusedKeys (e :: es)) ↔
          r.document.id ∈ fusedKeys es := by
        simp only [fusedKeys, List.map_cons, List.mem_cons]
        exact ⟨fun h => h.resolve_left (fun h' => hk h'.symm), Or.inr⟩
      by_cases hmem : r.document.id ∈ fusedKeys es
      · rw [if_pos (hm.mpr hmem)]
        simp only [fusedKeys, List.map_cons]
        have hkeq : fusedKeys (addContrib es r w) = fusedKeys es := by
          rw [ih, if_pos hmem]
        simpa [fusedKeys] using hkeq
      · rw [if_neg (fun h => hmem (hm.mp h))]
        simp only [fusedKeys, List.map_cons, List.cons_append]
        have hkeq : fusedKeys (addContrib es r w) =
            fusedKeys es ++ [r.document.id] := by
          rw [ih, if_neg hmem]
        simpa [fusedKeys] using hkeq

theorem fusedKeys_nodup_addContrib {l : List FusedEntry} (r : SRes) (w : ℚ)
    (hnd : (fusedKeys l).Nodup) : (fusedKeys (addContrib l r w)).Nodup := by
  rw [fusedKeys_addContrib]
  by_cases hm : r.document.id ∈ fusedKeys l
  · rwa [if_pos hm]
  · rw [if_neg hm]
    simpa [List.nodup_append] using ⟨hnd, hm⟩

theorem addContrib_fresh (l : List FusedEntry) (r : SRes) (w : ℚ)
    (h : r.document.id ∉ fusedKeys l) : addContrib l r w = l ++ [⟨r, w⟩] := by
  induction l with
  | nil => rfl
  | cons e es ih =>
    have hmem : (entryKey e = r.document.id) ∨ r.document.id ∈ fusedKeys es →
        r.document.id ∈ fusedKeys (e :: es) := by
      simp only [fusedKeys, List.map_cons, List.mem_cons]
      exact fun hc => hc.imp (fun h1 => h1.symm) (fun h2 => h2)
    have h1 : ¬ entryKey e = r.document.id := fun hc => h (hmem (Or.inl hc))
    have h2 : r.document.id ∉ fusedKeys es := fun hc => h (hmem (Or.inr hc))
    rw [addContrib, if_neg h1, ih h2]
    rfl

/-! ## Lemmas about the per-list accumulation loop `rrfAdd` -/

/-- The 0-based index of the first candidate with the given document id
(spec-side helper for stating rank formulas). -/
def idIdx (id : String) : List SRes → Option Nat
  | [] => none
  | r :: rs =>
    if r.document.id = id then some 0 else (idIdx id rs).map (· + 1)

/-- The RRF contribution of one candidate list: `w / (k + rank)` at the
1-indexed rank `idIdx + 1`, and `0` for an absent document. -/
def rrfContribution (w : ℚ) (rs : List SRes) (id : String) : ℚ :=
  match idIdx id rs with
  | some j => w / (rrfK + j + 1)
  | none => 0

theorem idIdx_eq_none_of_not_mem {id : String} {rs : List SRes}
    (h : id ∉ rs.map (fun r => r.document.id)) : idIdx id rs = none := by
  induction rs with
  | nil => rfl
  | cons r rs ih =>
    simp only [List.map_cons, List.mem_cons] at h
    rw [idIdx, if_neg (fun hc => h (Or.inl hc.symm)),
      ih (fun hc => h (Or.inr hc)), Option.map_none']

theorem lookupScore_rrfAdd (w : ℚ) (rank : Nat) (rs : List SRes)
    (acc : List FusedEntry) (id : String)
    (hnd : (rs.map (fun r => r.document.id)).Nodup) :
    lookupScore (rrfAdd w rank rs acc) id =
      match idIdx id rs with
      | some j => some ((lookupScore acc id).getD 0 + w / (rrfK + (rank + j) + 1))
      | none => lookupScore acc id := by
  induction rs generalizing rank acc with
  | nil => rfl
  | cons r rs ih =>
    simp only [List.map_cons, List.nodup_cons] at hnd
    rw [rrfAdd]
    by_cases hid : r.document.id = id
    · subst hid
      have hnone : idIdx r.document.id rs = none :=
        idIdx_eq_none_of_not_mem hnd.1
      rw [ih _ _ hnd.2, hnone]
      simp only [idIdx, if_pos rfl]
      rw [lookupScore_addContrib, if_pos rfl]
      norm_num
    · rw [ih _ _ hnd.2]
      have hstep : lookupScore (addContrib acc r (w / (rrfK + rank + 1))) id =
          lookupScore acc id := by
        rw [lookupScore_addContrib, if_neg (fun h => hid h.symm)]
      rw [idIdx, if_neg hid]
      cases hj : idIdx id rs with
      | none => simp only [hj, Option.map_none', hstep]
      | some j =>
        simp only [hj, Option.map_some', hstep]
        have harg : (rrfK + (↑(rank + 1) + ↑j) + 1 : ℚ) =
            (rrfK + (↑rank + ↑(j + 1)) + 1 : ℚ) := by
          push_cast
          ring
        rw [harg]

theorem fusedKeys_nodup_rrfAdd (w : ℚ) (rank : Nat) (rs : List SRes)
    {acc : List FusedEntry} (hnd : (fusedKeys acc).Nodup) :
    (fusedKeys (rrfAdd w rank rs acc)).Nodup := by
  induction rs generalizing rank acc with
  | nil => exact hnd
  | cons r rs ih =>
    rw [rrfAdd]
    exact ih _ (fusedKeys_nodup_addContrib r _ hnd)

theorem idIdx_isSome_of_mem {id : String} {rs : List SRes}
    (h : id ∈ rs.map (fun r => r.document.id)) : (idIdx id rs).isSome := by
  induction rs with
  | nil => cases h
  | cons r rs ih =>
    simp only [List.map_cons, List.mem_cons] at h
    by_cases hr : r.document.id = id
    · simp [idIdx, hr]
    · rcases h with h | h
      · exact absurd h.symm hr
      · simp only [idIdx, if_neg hr, Option.isSome_map']
        exact ih h

/-! ## Characterisation of the fused dict -/

/-- The fused dict built by `_rrf_fusion` before sorting. -/
def fusedOf (vrs brs : List SRes) : List FusedEntry :=
  rrfAdd rrfWeightBm25 0 brs (rrfAdd rrfWeightVector 0 vrs [])

theorem rrfFusion_eq (vrs brs : List SRes) :
    rrfFusion vrs brs = (sortDescBy (fun e => e.score) (fusedOf vrs brs)).map
      (fun e => ⟨e.result.document, e.score, "hybrid"⟩) := rfl

theorem mem_of_idIdx_isSome {id : String} {rs : List SRes}
    (h : (idIdx id rs).isSome) : id ∈ rs.map (fun r => r.document.id) := by
  induction rs with
  | nil => simp [idIdx] at h
  | cons r rs ih =>
    by_cases hr : r.document.id = id
    · simp [hr]
    · simp only [idIdx, if_neg hr, Option.isSome_map'] at h
      simp only [List.map_cons, List.mem_cons]
      exact Or.inr (ih h)

theorem fusedKeys_nodup_fusedOf (vrs brs : List SRes) :
    (fusedKeys (fusedOf vrs brs)).Nodup := by
  apply fusedKeys_nodup_rrfAdd
  apply fusedKeys_nodup_rrfAdd
  simp [fusedKeys]

theorem lookupScore_fusedOf (vrs brs : List SRes)
    (hv : (vrs.map (fun r => r.document.id)).Nodup)
    (hb : (brs.map (fun r => r.document.id)).Nodup) (id : String) :
    lookupScore (fusedOf vrs brs) id =
      if id ∈ vrs.map (fun r => r.document.id) ∨
          id ∈ brs.map (fun r => r.document.id) then
        some (rrfContribution rrfWeightVector vrs id +
          rrfContribution rrfWeightBm25 brs id)
      else none := by
  rw [fusedOf, lookupScore_rrfAdd _ _ _ _ _ hb, lookupScore_rrfAdd _ _ _ _ _ hv]
  cases hjv : idIdx id vrs with
  | some jv =>
    have hmv : id ∈ vrs.map (fun r => r.document.id) :=
      mem_of_idIdx_isSome (by rw [hjv]; rfl)
    cases hjb : idIdx id brs with
    | some jb =>
      rw [if_pos (Or.inl hmv)]
      simp only [rrfContribution, hjv, hjb, lookupScore, Option.getD_some]
      norm_num
    | none =>
      rw [if_pos (Or.inl hmv)]
      simp only [rrfContribution, hjv, hjb, lookupScore]
      norm_num
  | none =>
    cases hjb : idIdx id brs with
    | some jb =>
      have hmb : id ∈ brs.map (fun r => r.document.id) :=
        mem_of_idIdx_isSome (by rw [hjb]; rfl)
      rw [if_pos (Or.inr hmb)]
      simp only [rrfContribution, hjv, hjb, lookupScore, Option.getD_none]
      norm_num
    | none =>
      have hmv : id ∉ vrs.map (fun r => r.document.id) := by
        intro h
        have hs := idIdx_isSome_of_mem h
        rw [hjv] at hs
        cases hs
      have hmb : id ∉ brs.map (fun r => r.document.id) := by
        intro h
        have hs := idIdx_isSome_of_mem h
        rw [hjb] at hs
        cases hs
      rw [if_neg (fun h => h.elim hmv hmb)]
      simp [hjv, hjb, lookupScore]

theorem score_of_mem_fusedOf {vrs brs : List SRes}
    (hv : (vrs.map (fun r => r.document.id)).Nodup)
    (hb : (brs.map (fun r => r.document.id)).Nodup)
    {e : FusedEntry} (he : e ∈ fusedOf vrs brs) :
    e.score = rrfContribution rrfWeightVector vrs (entryKey e) +
      rrfContribution rrfWeightBm25 brs (entryKey e) := by
  have hl := lookupScore_self (fusedKeys_nodup_fusedOf vrs brs) he
  rw [lookupScore_fusedOf vrs brs hv hb] at hl
  by_cases hc : entryKey e ∈ vrs.map (fun r => r.document.id) ∨
      entryKey e ∈ brs.map (fun r => r.document.id)
  · rw [if_pos hc] at hl
    exact (Option.some_inj.mp hl).symm
  · rw [if_neg hc] at hl
    cases hl

/-- Every result of `_rrf_fusion` carries the summed RRF score of its
document id. -/
theorem rrfFusion_score {vrs brs : List SRes}
    (hv : (vrs.map (fun r => r.document.id)).Nodup)
    (hb : (brs.map (fun r => r.document.id)).Nodup) :
    ∀ r ∈ rrfFusion vrs brs,
      r.score = rrfContribution rrfWeightVector vrs r.document.id +
        rrfContribution rrfWeightBm25 brs r.document.id := by
  intro r hr
  rw [rrfFusion_eq] at hr
  obtain ⟨e, he, rfl⟩ := List.mem_map.mp hr
  have he' : e ∈ fusedOf vrs brs := (sortDescBy_perm _ _).mem_iff.mp he
  exact score_of_mem_fusedOf hv hb he'

/-- The fused list never contains two entries with the same document id. -/
theorem rrfFusion_ids_nodup (vrs brs : List SRes) :
    ((rrfFusion vrs brs).map (fun r => r.document.id)).Nodup := by
  rw [rrfFusion_eq, List.map_map]
  have hmapeq : ((fun r : SRes => r.document.id) ∘
      (fun e : FusedEntry => (⟨e.result.document, e.score, "hybrid"⟩ : SRes))) =
      entryKey := rfl
  rw [hmapeq]
  have hperm : ((sortDescBy (fun e => e.score) (fusedOf vrs brs)).map
      entryKey).Perm (fusedKeys (fusedOf vrs brs)) :=
    (sortDescBy_perm _ _).map entryKey
  exact hperm.nodup_iff.mpr (fusedKeys_nodup_fusedOf vrs brs)

/-- The fused list is sorted by score, descending. -/
theorem rrfFusion_sorted (vrs brs : List SRes) :
    (rrfFusion vrs brs).Pairwise (fun a b => b.score ≤ a.score) := by
  rw [rrfFusion_eq]
  exact List.Pairwise.map _ (fun a b h => h) (sortDescBy_pairwise _ _)

/-! ## Single-list fusion preserves the candidate order (`contribList`) -/

/-- The fused entries produced by one candidate list alone: the candidates
in order, the one at 0-based `rank` scored `w / (k + rank + 1)`. -/
def contribList (w : ℚ) : Nat → List SRes → List FusedEntry
  | _, [] => []
  | rank, r :: rs => ⟨r, w / (rrfK + rank + 1)⟩ :: contribList w (rank + 1) rs

theorem rrfAdd_fresh (w : ℚ) (rank : Nat) (rs : List SRes)
    (acc : List FusedEntry)
    (hfresh : ∀ r ∈ rs, r.document.id ∉ fusedKeys acc)
    (hnd : (rs.map (fun r => r.document.id)).Nodup) :
    rrfAdd w rank rs acc = acc ++ contribList w rank rs := by
  induction rs generalizing rank acc with
  | nil => simp [rrfAdd, contribList]
  | cons r rs ih =>
    simp only [List.map_cons, List.nodup_cons] at hnd
    rw [rrfAdd, addContrib_fresh _ _ _ (hfresh r (List.mem_cons_self r rs))]
    have hfresh' : ∀ r' ∈ rs, r'.document.id ∉
        fusedKeys (acc ++ [⟨r, w / (rrfK + rank + 1)⟩]) := by
      intro r' hr' hmem
      simp only [fusedKeys, entryKey, List.map_append, List.mem_append,
        List.map_cons, List.map_nil, List.mem_cons, List.not_mem_nil,
        or_false] at hmem
      rcases hmem with hmem | hmem
      · exact hfresh r' (List.mem_cons_of_mem _ hr') hmem
      · exact hnd.1 (hmem ▸ List.mem_map_of_mem (fun x => x.document.id) hr')
    rw [ih _ _ hfresh' hnd.2, contribList]
    simp

theorem contribList_result (w : ℚ) (rank : Nat) (rs : List SRes) :
    (contribList w rank rs).map FusedEntry.result = rs := by
  induction rs generalizing rank with
  | nil => rfl
  | cons r rs ih =>
    rw [contribList, List.map_cons, ih]

theorem contribList_score_le (w : ℚ) (hw : 0 < w) (rank : Nat)
    (rs : List SRes) :
    ∀ e ∈ contribList w rank rs, e.score ≤ w / (rrfK + rank + 1) := by
  induction rs generalizing rank with
  | nil => intro e he; cases he
  | cons r rs ih =>
    intro e he
    rcases List.mem_cons.mp he with rfl | hmem
    · exact le_refl _
    · have h1 : e.score ≤ w / (rrfK + ↑(rank + 1) + 1) := ih (rank + 1) e hmem
      have hd1 : (0 : ℚ) < rrfK + ↑rank + 1 := by
        simp only [rrfK]
        positivity
      have hd2 : (0 : ℚ) < rrfK + ↑(rank + 1) + 1 := by
        simp only [rrfK]
        positivity
      have hle : w / (rrfK + ↑(rank + 1) + 1) ≤ w / (rrfK + ↑rank + 1) := by
        apply div_le_div_of_nonneg_left (le_of_lt hw) hd1
        push_cast
        linarith
      exact le_trans h1 hle

theorem contribList_pairwise (w : ℚ) (hw : 0 < w) (rank : Nat)
    (rs : List SRes) :
    (contribList w rank rs).Pairwise (fun a b => b.score < a.score) := by
  induction rs generalizing rank with
  | nil => exact List.Pairwise.nil
  | cons r rs ih =>
    rw [contribList]
    refine List.Pairwise.cons ?_ (ih (rank + 1))
    intro e he
    have h1 : e.score ≤ w / (rrfK + ↑(rank + 1) + 1) :=
      contribList_score_le w hw (rank + 1) rs e he
    have hd1 : (0 : ℚ) < rrfK + ↑rank + 1 := by
      simp only [rrfK]
      positivity
    have hd2 : (0 : ℚ) < rrfK + ↑(rank + 1) + 1 := by
      simp only [rrfK]
      positivity
    have hlt : w / (rrfK + ↑(rank + 1) + 1) < w / (rrfK + ↑rank + 1) := by
      apply div_lt_div_of_pos_left hw hd1
      push_cast
      linarith
    exact lt_of_le_of_lt h1 hlt

/-- Fusing an empty vector list with lexical candidates keeps the lexical
order: the dict is the candidates in order with strictly decreasing scores,
so the stable sort is the identity. -/
theorem rrfFusion_nil_left (brs : List SRes)
    (hb : (brs.map (fun r => r.document.id)).Nodup) :
    rrfFusion [] brs = (contribList rrfWeightBm25 0 brs).map
      (fun e => ⟨e.result.document, e.score, "hybrid"⟩) := by
  rw [rrfFusion_eq]
  have hfused : fusedOf [] brs = contribList rrfWeightBm25 0 brs := by
    rw [fusedOf]
    have h1 : rrfAdd rrfWeightVector 0 [] [] = ([] : List FusedEntry) := rfl
    rw [h1, rrfAdd_fresh _ _ _ _ (by intro r _ h; cases h) hb, List.nil_append]
  rw [hfused, sortDescBy_eq_self]
  apply contribList_pairwise
  norm_num [rrfWeightBm25]

/-- Fusing vector candidates with an empty lexical list keeps the vector
order. -/
theorem rrfFusion_nil_right (vrs : List SRes)
    (hv : (vrs.map (fun r => r.document.id)).Nodup) :
    rrfFusion vrs [] = (contribList rrfWeightVector 0 vrs).map
      (fun e => ⟨e.result.document, e.score, "hybrid"⟩) := by
  rw [rrfFusion_eq]
  have hfused : fusedOf vrs [] = contribList rrfWeightVector 0 vrs := by
    rw [fusedOf]
    have h1 : rrfAdd rrfWeightBm25 0 []
        (rrfAdd rrfWeightVector 0 vrs []) = rrfAdd rrfWeightVector 0 vrs [] :=
      rfl
    rw [h1, rrfAdd_fresh _ _ _ _ (by intro r _ h; cases h) hv, List.nil_append]
  rw [hfused, sortDescBy_eq_self]
  apply contribList_pairwise
  norm_num [rrfWeightVector]

/-! ## Helpers at the `search_hybrid` level -/

theorem searchHybrid_eq (ors : Oracles) (st : StoreState) (q : String)
    {topK : Nat} (h : topK ≠ 0) :
    searchHybrid ors st q topK =
      ((rrfFusion (vectorCandidates ors st q (topK * searchOversample))
        (bm25Candidates ors st q (topK * searchOversample))).take topK).map
        toRDict := by
  simp only [searchHybrid, if_neg h]

theorem searchHybrid_ids (ors : Oracles) (st : StoreState) (q : String)
    {topK : Nat} (h : topK ≠ 0) :
    (searchHybrid ors st q topK).map RDict.id =
      ((rrfFusion (vectorCandidates ors st q (topK * searchOversample))
        (bm25Candidates ors st q (topK * searchOversample))).take topK).map
        (fun r => r.document.id) := by
  rw [searchHybrid_eq ors st q h, List.map_map]
  rfl

theorem qdrantSearch_nil (sim : List ℚ → List ℚ → ℚ) (emb : List ℚ)
    (topK : Nat) : qdrantSearch sim [] emb topK = [] := by
  rw [qdrantSearch]
  split
  · rfl
  · simp [sortDescBy, List.insertionSort]

theorem contrib_take_ids (w : ℚ) (rs : List SRes) (k : Nat) :
    (((contribList w 0 rs).map
      (fun e => (⟨e.result.document, e.score, "hybrid"⟩ : SRes))).take k).map
        (fun r => r.document.id) =
      (rs.take k).map (fun r => r.document.id) := by
  have h1 : ((contribList w 0 rs).map
      (fun e => (⟨e.result.document, e.score, "hybrid"⟩ : SRes))).map
        (fun r => r.document.id) = rs.map (fun r => r.document.id) := by
    rw [List.map_map]
    conv_rhs => rw [← contribList_result w 0 rs]
    rw [List.map_map]
    rfl
  calc (((contribList w 0 rs).map
        (fun e => (⟨e.result.document, e.score, "hybrid"⟩ : SRes))).take k).map
          (fun r => r.document.id)
      = (((contribList w 0 rs).map
        (fun e => (⟨e.result.document, e.score, "hybrid"⟩ : SRes))).map
          (fun r => r.document.id)).take k := List.map_take ..
    _ = (rs.map (fun r => r.document.id)).take k := by rw [h1]
    _ = (rs.take k).map (fun r => r.document.id) := (List.map_take ..).symm

/-! ## Claim theorems for the hybrid retriever -/

/-- C1: for every corpus state, every query and every `top_k ≥ 1`,
`search_hybrid` returns at most `top_k` results, and the returned scores are
monotonically non-increasing by index. -/
theorem search_hybrid_topk_bound_and_sorted (ors : Oracles) (st : StoreState)
    (q : String) (topK : Nat) (h : 1 ≤ topK) :
    (searchHybrid ors st q topK).length ≤ topK ∧
      (searchHybrid ors st q topK).Pairwise (fun a b => b.score ≤ a.score) := by
  have h0 : topK ≠ 0 := by omega
  rw [searchHybrid_eq ors st q h0]
  constructor
  · rw [List.length_map]
    exact List.length_take_le _ _
  · exact List.Pairwise.map _ (fun a b hab => hab)
      (List.Pairwise.sublist (List.take_sublist _ _) (rrfFusion_sorted _ _))

def oracles0 : Oracles := ⟨fun _ => [], fun _ _ => 0, fun _ => []⟩

def state0 : StoreState := ⟨[], none, [], [], none, []⟩

/-- Witness for C1 at a concrete input. -/
theorem search_hybrid_topk_bound_and_sorted_witness :
    (searchHybrid oracles0 state0 "q" 1).length ≤ 1 ∧
      (searchHybrid oracles0 state0 "q" 1).Pairwise
        (fun a b => b.score ≤ a.score) :=
  search_hybrid_topk_bound_and_sorted oracles0 state0 "q" 1 (by decide)

/-- C2: with the configured constants `k = 60`, `w_vector = 1.0` and
`w_bm25 = 0.3`, every document in the fused list has score equal to the sum
over both candidate lists of `w / (k + r)` (`r` its 1-indexed rank there,
zero if absent), the fused list is sorted by that score descending, and
`search_hybrid` returns it truncated to `top_k`. -/
theorem rrf_fusion_score_formula (vrs brs : List SRes)
    (hv : (vrs.map (fun r => r.document.id)).Nodup)
    (hb : (brs.map (fun r => r.document.id)).Nodup) :
    rrfK = 60 ∧ rrfWeightVector = 1 ∧ rrfWeightBm25 = 3 / 10 ∧
    (∀ r ∈ rrfFusion vrs brs,
      r.score = rrfContribution rrfWeightVector vrs r.document.id +
        rrfContribution rrfWeightBm25 brs r.document.id) ∧
    (rrfFusion vrs brs).Pairwise (fun a b => b.score ≤ a.score) ∧
    (∀ (ors : Oracles) (st : StoreState) (q : String) (topK : Nat),
      1 ≤ topK →
      searchHybrid ors st q topK =
        ((rrfFusion (vectorCandidates ors st q (topK * searchOversample))
          (bm25Candidates ors st q (topK * searchOversample))).take topK).map
          toRDict) :=
  ⟨rfl, rfl, rfl, rrfFusion_score hv hb, rrfFusion_sorted vrs brs,
    fun ors st q topK h => searchHybrid_eq ors st q (by omega)⟩

def docA0 : Doc := ⟨"a", "alpha content", "fa.py"⟩

def docB0 : Doc := ⟨"b", "beta content", "fb.py"⟩

/-- Witness for C2 at a concrete input. -/
theorem rrf_fusion_score_formula_witness :
    rrfK = 60 ∧ rrfWeightVector = 1 ∧ rrfWeightBm25 = 3 / 10 ∧
    (∀ r ∈ rrfFusion [⟨docA0, 9 / 10, "vector"⟩]
        [⟨docB0, 2, "bm25"⟩, ⟨docA0, 1, "bm25"⟩],
      r.score = rrfContribution rrfWeightVector [⟨docA0, 9 / 10, "vector"⟩]
          r.document.id +
        rrfContribution rrfWeightBm25
          [⟨docB0, 2, "bm25"⟩, ⟨docA0, 1, "bm25"⟩] r.document.id) ∧
    (rrfFusion [⟨docA0, 9 / 10, "vector"⟩]
      [⟨docB0, 2, "bm25"⟩, ⟨docA0, 1, "bm25"⟩]).Pairwise
        (fun a b => b.score ≤ a.score) ∧
    (∀ (ors : Oracles) (st : StoreState) (q : String) (topK : Nat),
      1 ≤ topK →
      searchHybrid ors st q topK =
        ((rrfFusion (vectorCandidates ors st q (topK * searchOversample))
          (bm25Candidates ors st q (topK * searchOversample))).take topK).map
          toRDict) :=
  rrf_fusion_score_formula [⟨docA0, 9 / 10, "vector"⟩]
    [⟨docB0, 2, "bm25"⟩, ⟨docA0, 1, "bm25"⟩] (by decide) (by decide)

/-- C3: `search_hybrid` degrades gracefully — an empty/failed query
embedding gives an empty vector candidate list and a result ranked by the
lexical candidates alone; an absent lexical index gives an empty BM25 list
and a result ranked by the vector candidates alone; an empty corpus gives
the empty result list (the model is a total function, so no error is
possible). -/
theorem search_hybrid_graceful_degradation (ors : Oracles) (st : StoreState)
    (q : String) (topK : Nat) (htop : 1 ≤ topK) :
    (ors.embedText q = [] →
      ((bm25Candidates ors st q (topK * searchOversample)).map
        (fun r => r.document.id)).Nodup →
      vectorCandidates ors st q (topK * searchOversample) = [] ∧
      (searchHybrid ors st q topK).map RDict.id =
        ((bm25Candidates ors st q (topK * searchOversample)).take topK).map
          (fun r => r.document.id)) ∧
    (st.bm25 = none →
      ((vectorCandidates ors st q (topK * searchOversample)).map
        (fun r => r.document.id)).Nodup →
      bm25Candidates ors st q (topK * searchOversample) = [] ∧
      (searchHybrid ors st q topK).map RDict.id =
        ((vectorCandidates ors st q (topK * searchOversample)).take topK).map
          (fun r => r.document.id)) ∧
    (st.qdocs = [] → st.docStore = [] → searchHybrid ors st q topK = []) := by
  have h0 : topK ≠ 0 := by omega
  refine ⟨?_, ?_, ?_⟩
  · intro hemb hnd
    have hvc : vectorCandidates ors st q (topK * searchOversample) = [] := by
      simp [vectorCandidates, hemb]
    refine ⟨hvc, ?_⟩
    rw [searchHybrid_ids ors st q h0, hvc, rrfFusion_nil_left _ hnd,
      contrib_take_ids]
  · intro hbm hnd
    have hbc : bm25Candidates ors st q (topK * searchOversample) = [] := by
      rw [bm25Candidates, hbm]
    refine ⟨hbc, ?_⟩
    rw [searchHybrid_ids ors st q h0, hbc, rrfFusion_nil_right _ hnd,
      contrib_take_ids]
  · intro hq hd
    have hvc : ∀ k, vectorCandidates ors st q k = [] := by
      intro k
      rw [vectorCandidates]
      split
      · rw [hq, qdrantSearch_nil]
      · rfl
    have hbc : ∀ k, bm25Candidates ors st q k = [] := by
      intro k
      rw [bm25Candidates]
      cases hb : st.bm25 with
      | none => rfl
      | some f => simp [hd]
    have hff : rrfFusion ([] : List SRes) [] = [] := rfl
    simp only [searchHybrid, hvc, hbc, hff, List.take_nil, List.map_nil]

/-- Witness for C3 at a concrete input. -/
theorem search_hybrid_graceful_degradation_witness :
    (vectorCandidates oracles0 state0 "q" (1 * searchOversample) = [] ∧
      (searchHybrid oracles0 state0 "q" 1).map RDict.id =
        ((bm25Candidates oracles0 state0 "q" (1 * searchOversample)).take 1).map
          (fun r => r.document.id)) ∧
    searchHybrid oracles0 state0 "q" 1 = [] :=
  ⟨(search_hybrid_graceful_degradation oracles0 state0 "q" 1 (by decide)).1
      rfl (by decide),
    (search_hybrid_graceful_degradation oracles0 state0 "q" 1
      (by decide)).2.2 rfl rfl⟩

/-- C8: after `reset()` the persisted collection, the in-memory document
list, the lexical index and the session metadata are all cleared, and
`search_hybrid` on any query and any `top_k` returns the empty list. -/
theorem reset_then_search_hybrid_empty (ors : Oracles) (st : StoreState)
    (q : String) (topK : Nat) :
    (reset st).qdocs = [] ∧ (reset st).docStore = [] ∧
    (reset st).bm25 = none ∧ (reset st).indexedFiles = [] ∧
    (reset st).repoUrl = none ∧ (reset st).globalContext = [] ∧
    searchHybrid ors (reset st) q topK = [] := by
  refine ⟨rfl, rfl, rfl, rfl, rfl, rfl, ?_⟩
  have hvc : ∀ k, vectorCandidates ors (reset st) q k = [] := by
    intro k
    rw [vectorCandidates]
    split
    · exact qdrantSearch_nil ..
    · rfl
  have hbc : ∀ k, bm25Candidates ors (reset st) q k = [] := fun k => rfl
  have hff : rrfFusion ([] : List SRes) [] = [] := rfl
  simp only [searchHybrid, hvc, hbc, hff, List.take_nil, List.map_nil]

/-- C10: `search_hybrid` never returns the same document id twice — the
fused dict is keyed by document id, so a document on both candidate lists is
merged into one entry whose score is the sum of its two contributions. -/
theorem search_hybrid_ids_distinct :
    (∀ (ors : Oracles) (st : StoreState) (q : String) (topK : Nat),
      ((searchHybrid ors st q topK).map RDict.id).Nodup) ∧
    (∀ (vrs brs : List SRes) (id : String) (jv jb : Nat),
      (vrs.map (fun r => r.document.id)).Nodup →
      (brs.map (fun r => r.document.id)).Nodup →
      idIdx id vrs = some jv → idIdx id brs = some jb →
      ((rrfFusion vrs brs).map (fun r => r.document.id)).Nodup ∧
      ∃ r ∈ rrfFusion vrs brs, r.document.id = id ∧
        r.score = rrfWeightVector / (rrfK + jv + 1) +
          rrfWeightBm25 / (rrfK + jb + 1)) := by
  constructor
  · intro ors st q topK
    simp only [searchHybrid, List.map_map]
    have heq : (RDict.id ∘ toRDict) = (fun r : SRes => r.document.id) := rfl
    rw [heq]
    have h1 : (((rrfFusion
        (vectorCandidates ors st q
          ((if topK = 0 then defaultTopK else topK) * searchOversample))
        (bm25Candidates ors st q
          ((if topK = 0 then defaultTopK else topK) * searchOversample))).take
        (if topK = 0 then defaultTopK else topK)).map
        (fun r : SRes => r.document.id)).Nodup := by
      rw [List.map_take]
      exact List.Nodup.sublist (List.take_sublist _ _) (rrfFusion_ids_nodup _ _)
    exact h1
  · intro vrs brs id jv jb hv hb hjv hjb
    refine ⟨rrfFusion_ids_nodup vrs brs, ?_⟩
    have hmb : id ∈ brs.map (fun r => r.document.id) :=
      mem_of_idIdx_isSome (by rw [hjb]; rfl)
    have hl := lookupScore_fusedOf vrs brs hv hb id
    rw [if_pos (Or.inr hmb)] at hl
    obtain ⟨e, he, hkey, hscore⟩ := mem_of_lookupScore hl
    refine ⟨⟨e.result.document, e.score, "hybrid"⟩, ?_, ?_, ?_⟩
    · rw [rrfFusion_eq]
      exact List.mem_map_of_mem _ ((sortDescBy_perm _ _).mem_iff.mpr he)
    · exact hkey
    · rw [hscore]
      simp only [rrfContribution, hjv, hjb]

/-- Witness for C10 at a concrete input. -/
theorem search_hybrid_ids_distinct_witness :
    ((rrfFusion [⟨docA0, 9 / 10, "vector"⟩]
      [⟨docB0, 2, "bm25"⟩, ⟨docA0, 1, "bm25"⟩]).map
        (fun r => r.document.id)).Nodup ∧
    ∃ r ∈ rrfFusion [⟨docA0, 9 / 10, "vector"⟩]
        [⟨docB0, 2, "bm25"⟩, ⟨docA0, 1, "bm25"⟩],
      r.document.id = "a" ∧
      r.score = rrfWeightVector / (rrfK + 0 + 1) +
        rrfWeightBm25 / (rrfK + 1 + 1) :=
  search_hybrid_ids_distinct.2 [⟨docA0, 9 / 10, "vector"⟩]
    [⟨docB0, 2, "bm25"⟩, ⟨docA0, 1, "bm25"⟩] "a" 0 1
    (by decide) (by decide) (by decide) (by decide)

/-! ## Chunker lemmas -/

theorem string_empty_append (s : String) : "" ++ s = s := by
  cases s with
  | mk data =>
    show String.mk ([] ++ data) = String.mk data
    rw [List.nil_append]

theorem classifyPy_eq (cfg : ChunkingConfig) (file : String)
    (tree : List PyStmt) :
    classifyPy cfg file tree =
      (pyImports tree, pyOthers tree, pyDeclChunks cfg file tree) := by
  induction tree with
  | nil => rfl
  | cons n ns ih =>
    cases n with
    | classDef name body src lineno ds =>
      simp only [classifyPy, ih, pyImports, pyOthers, pyDeclChunks,
        List.filterMap_cons, List.flatMap_cons]
      by_cases h1 : src = ""
      · simp [h1]
      · by_cases h2 : src.length ≤ cfg.maxChunkSize
        · simp [h1, h2]
        · simp [h1, h2]
    | funcDef name src lineno =>
      simp only [classifyPy, ih, pyImports, pyOthers, pyDeclChunks,
        List.filterMap_cons, List.flatMap_cons]
      by_cases h : src ≠ "" ∧ cfg.minChunkSize ≤ src.length
      · simp [h]
      · simp [h]
    | importStmt src =>
      simp only [classifyPy, ih, pyImports, pyOthers, pyDeclChunks,
        List.filterMap_cons, List.flatMap_cons]
      by_cases h : pyStrip src ≠ ""
      · simp [h]
      · simp [h]
    | otherTop src =>
      simp only [classifyPy, ih, pyImports, pyOthers, pyDeclChunks,
        List.filterMap_cons, List.flatMap_cons]
      by_cases h : pyStrip src ≠ ""
      · simp [h]
      · simp [h]

/-- The "other globals" blob of `_chunk_python`:
`"\n".join(other_nodes).strip()`. -/
def pyOthersText (tree : List PyStmt) : String :=
  pyStrip (String.intercalate "\n" (pyOthers tree))

/-- The context header injected into every declaration chunk (steps C-D of
`_chunk_python`). -/
def pyContextHeader (cfg : ChunkingConfig) (tree : List PyStmt) : String :=
  let othersText := pyOthersText tree
  let contextParts :=
    (if pyImports tree ≠ [] then [String.intercalate "\n" (pyImports tree)]
     else []) ++
      (if othersText ≠ "" ∧ othersText.length ≤ cfg.maxContextChars then
        [othersText] else [])
  let fullHeader0 := pyStrip (String.intercalate "\n" contextParts)
  if fullHeader0 ≠ "" then
    "# --- Context ---\n" ++ fullHeader0 ++ "\n# ---------------\n"
  else fullHeader0

/-- The standalone overflow `global_context` chunk (step E of
`_chunk_python`). -/
def pyGlobalOverflow (cfg : ChunkingConfig) (file : String)
    (tree : List PyStmt) : List Chunk :=
  if pyOthersText tree ≠ "" ∧ ¬ (pyOthersText tree).length ≤ cfg.maxContextChars
  then [createChunk (pyOthersText tree) file "global_context" "globals" 1 ""]
  else []

/-- When the classifier produced at least one declaration chunk, the output
of `_chunk_python` is exactly the optional overflow chunk followed by the
declaration chunks, each with the shared context header prepended. -/
theorem chunkPython_decl_eq (cfg : ChunkingConfig) (content file : String)
    (tree : List PyStmt) (hcore : pyDeclChunks cfg file tree ≠ []) :
    chunkPython cfg content tree file =
      pyGlobalOverflow cfg file tree ++
        (pyDeclChunks cfg file tree).map
          (fun c => { c with content := pyContextHeader cfg tree ++ c.content }) := by
  simp only [chunkPython, classifyPy_eq]
  rw [if_neg hcore]
  rfl

/-- The conditions under which the classifier keeps a declaration whole
(classes within the max bound, functions at or above the min bound). -/
def declOk (cfg : ChunkingConfig) : PyStmt → Prop
  | .classDef _ _ src _ _ => src ≠ "" ∧ src.length ≤ cfg.maxChunkSize
  | .funcDef _ src _ => src ≠ "" ∧ cfg.minChunkSize ≤ src.length
  | _ => True

theorem pyDeclChunks_content (cfg : ChunkingConfig) (file : String)
    (tree : List PyStmt) (hdecl : ∀ n ∈ tree, declOk cfg n) :
    (pyDeclChunks cfg file tree).map Chunk.content = declSources cfg tree := by
  induction tree with
  | nil => rfl
  | cons n ns ih =>
    have hns : ∀ m ∈ ns, declOk cfg m :=
      fun m hm => hdecl m (List.mem_cons_of_mem n hm)
    have hn := hdecl n (List.mem_cons_self n ns)
    have ih' := ih hns
    simp only [pyDeclChunks, declSources] at ih'
    cases n with
    | classDef name body src lineno ds =>
      simp only [declOk] at hn
      obtain ⟨h1, h2⟩ := hn
      simp only [pyDeclChunks, declSources, List.flatMap_cons,
        List.filterMap_cons, if_neg h1, if_pos h2, List.map_append]
      rw [ih']
      rfl
    | funcDef name src lineno =>
      simp only [declOk] at hn
      simp only [pyDeclChunks, declSources, List.flatMap_cons,
        List.filterMap_cons, if_pos hn, List.map_append]
      rw [ih']
      rfl
    | importStmt src =>
      simp only [pyDeclChunks, declSources, List.flatMap_cons,
        List.filterMap_cons, List.nil_append]
      exact ih'
    | otherTop src =>
      simp only [pyDeclChunks, declSources, List.flatMap_cons,
        List.filterMap_cons, List.nil_append]
      exact ih'

/-- Every top-level statement that the chunker keeps, by category. -/
def keptSources (cfg : ChunkingConfig) (tree : List PyStmt) : List String :=
  tree.filterMap (fun n =>
    match n with
    | .importStmt src => if pyStrip src ≠ "" then some src else none
    | .otherTop src => if pyStrip src ≠ "" then some src else none
    | .classDef _ _ src _ _ =>
      if src = "" then none
      else if src.length ≤ cfg.maxChunkSize then some src else none
    | .funcDef _ src _ =>
      if src ≠ "" ∧ cfg.minChunkSize ≤ src.length then some src else none)

theorem sources_perm (cfg : ChunkingConfig) (tree : List PyStmt) :
    (pyImports tree ++ pyOthers tree ++ declSources cfg tree).Perm
      (keptSources cfg tree) := by
  induction tree with
  | nil => rfl
  | cons n ns ih =>
    simp only [pyImports, pyOthers, declSources, keptSources,
      List.filterMap_cons] at ih ⊢
    cases n with
    | importStmt src =>
      by_cases h : pyStrip src ≠ ""
      · simp only [if_pos h, List.cons_append]
        exact ih.cons src
      · simp only [if_neg h]
        exact ih
    | otherTop src =>
      by_cases h : pyStrip src ≠ ""
      · simp only [if_pos h]
        rw [List.append_assoc, List.cons_append]
        refine List.Perm.trans List.perm_middle ?_
        rw [← List.append_assoc]
        exact ih.cons src
      · simp only [if_neg h]
        exact ih
    | classDef name body src lineno ds =>
      by_cases h1 : src = ""
      · simp only [if_pos h1]
        exact ih
      · by_cases h2 : src.length ≤ cfg.maxChunkSize
        · simp only [if_neg h1, if_pos h2]
          exact List.Perm.trans List.perm_middle (ih.cons src)
        · simp only [if_neg h1, if_neg h2]
          exact ih
    | funcDef name src lineno =>
      by_cases h : src ≠ "" ∧ cfg.minChunkSize ≤ src.length
      · simp only [if_pos h]
        exact List.Perm.trans List.perm_middle (ih.cons src)
      · simp only [if_neg h]
        exact ih

/-! ## Claim C4: the two-method class example

Concrete 40-line file for the counterexample: a 6-line class with two
methods, padded with 34 comment lines.  The class source fits the default
2000-character bound, so `_chunk_python` emits one `class` chunk and never
reaches `_chunk_large_python_class`. -/

def s1c4 : String := "def hello(self):\n        return 1"

def s2c4 : String := "def bye(self):\n        return 2"

def csrc40 : String := "class Greeter:\n    " ++ s1c4 ++ "\n\n    " ++ s2c4

def tree40 : List PyStmt :=
  [.classDef "Greeter" [.methodDef "hello" s1c4 2, .methodDef "bye" s2c4 5]
    csrc40 1 ""]

def content40 : String :=
  csrc40 ++ "\n" ++ String.intercalate "\n" (List.replicate 34 "# pad")

set_option maxRecDepth 2048 in
/-- C4 counterexample: a 40-line Python file with exactly one top-level
class holding two methods, each method far below the maximum chunk size,
yields ONE chunk of kind `class` — not 2 chunks of kind `Method` — because
the whole class also fits the maximum chunk size and `_chunk_python` only
splits a class into method chunks when the class source exceeds the bound. -/
theorem chunk_small_class_one_class_chunk :
    (pySplitLines content40).length = 40 ∧
    s1c4.length ≤ defaultChunkingConfig.maxChunkSize ∧
    s2c4.length ≤ defaultChunkingConfig.maxChunkSize ∧
    chunkPython defaultChunkingConfig content40 tree40 "m.py" =
      [createChunk csrc40 "m.py" "class" "Greeter" 1 "Greeter"] := by
  refine ⟨?_, ?_, ?_, ?_⟩ <;> decide

/-- C4 (amended): chunking a Python file whose single top-level class
EXCEEDS the maximum chunk size while each of its two methods fits yields
exactly 2 chunks of kind `method`, each prefixed by the same synthesized
class-header text, each with enclosing class equal to the class name and
start line equal to that method's `def` line. -/
theorem chunk_two_method_class_split (cfg : ChunkingConfig)
    (content file cname ds m1 m2 s1 s2 : String) (l1 l2 lc : Nat)
    (csrc : String)
    (hbig : cfg.maxChunkSize < csrc.length)
    (hs1 : s1 ≠ "") (hs2 : s2 ≠ "")
    (_hfit1 : s1.length ≤ cfg.maxChunkSize)
    (_hfit2 : s2.length ≤ cfg.maxChunkSize) :
    chunkPython cfg content
        [.classDef cname [.methodDef m1 s1 l1, .methodDef m2 s2 l2] csrc lc ds]
        file =
      [createChunk (classContextHeader cname
          [.methodDef m1 s1 l1, .methodDef m2 s2 l2] ds ++ "\n" ++ s1)
          file "method" m1 l1 cname,
        createChunk (classContextHeader cname
          [.methodDef m1 s1 l1, .methodDef m2 s2 l2] ds ++ "\n" ++ s2)
          file "method" m2 l2 cname] := by
  have hne : csrc ≠ "" := by
    intro h
    rw [h] at hbig
    simp only [String.length_empty] at hbig
    omega
  have hnot : ¬ csrc.length ≤ cfg.maxChunkSize := by omega
  have hlarge : chunkLargePythonClass file cname
      [.methodDef m1 s1 l1, .methodDef m2 s2 l2] ds =
      [createChunk (classContextHeader cname
          [.methodDef m1 s1 l1, .methodDef m2 s2 l2] ds ++ "\n" ++ s1)
          file "method" m1 l1 cname,
        createChunk (classContextHeader cname
          [.methodDef m1 s1 l1, .methodDef m2 s2 l2] ds ++ "\n" ++ s2)
          file "method" m2 l2 cname] := by
    simp only [chunkLargePythonClass, List.filterMap_cons, List.filterMap_nil,
      if_neg hs1, if_neg hs2]
  have hdeclc : pyDeclChunks cfg file
      [.classDef cname [.methodDef m1 s1 l1, .methodDef m2 s2 l2] csrc lc ds] =
      chunkLargePythonClass file cname
        [.methodDef m1 s1 l1, .methodDef m2 s2 l2] ds := by
    simp only [pyDeclChunks, List.flatMap_cons, List.flatMap_nil,
      if_neg hne, if_neg hnot, List.append_nil]
  have hcore : pyDeclChunks cfg file
      [.classDef cname [.methodDef m1 s1 l1, .methodDef m2 s2 l2] csrc lc ds] ≠
      [] := by
    rw [hdeclc, hlarge]
    exact List.cons_ne_nil _ _
  rw [chunkPython_decl_eq cfg content file _ hcore, hdeclc, hlarge]
  have himp : pyImports
      [PyStmt.classDef cname [.methodDef m1 s1 l1, .methodDef m2 s2 l2]
        csrc lc ds] = [] := rfl
  have hoth : pyOthersText
      [PyStmt.classDef cname [.methodDef m1 s1 l1, .methodDef m2 s2 l2]
        csrc lc ds] = "" := rfl
  have hic : String.intercalate "\n" ([] : List String) = "" := rfl
  have htr : pyStrip "" = "" := rfl
  have hhdr : pyContextHeader cfg
      [PyStmt.classDef cname [.methodDef m1 s1 l1, .methodDef m2 s2 l2]
        csrc lc ds] = "" := by
    simp [pyContextHeader, hoth, himp, hic, htr]
  have hglob : pyGlobalOverflow cfg file
      [PyStmt.classDef cname [.methodDef m1 s1 l1, .methodDef m2 s2 l2]
        csrc lc ds] = [] := by
    simp [pyGlobalOverflow, hoth]
  rw [hglob, hhdr, List.nil_append]
  simp [string_empty_append, createChunk]

set_option maxRecDepth 2048 in
/-- Witness for C4 (amended) at a concrete input: the class source is 2100
characters (over the 2000 bound), the methods are small. -/
theorem chunk_two_method_class_split_witness :
    chunkPython defaultChunkingConfig "" ([.classDef "Big"
        [.methodDef "hello" s1c4 2, .methodDef "bye" s2c4 30]
        (String.mk (List.replicate 2100 'x')) 1 "doc"]) "big.py" =
      [createChunk (classContextHeader "Big"
          [.methodDef "hello" s1c4 2, .methodDef "bye" s2c4 30] "doc" ++
          "\n" ++ s1c4) "big.py" "method" "hello" 2 "Big",
        createChunk (classContextHeader "Big"
          [.methodDef "hello" s1c4 2, .methodDef "bye" s2c4 30] "doc" ++
          "\n" ++ s2c4) "big.py" "method" "bye" 30 "Big"] :=
  chunk_two_method_class_split defaultChunkingConfig "" "big.py" "Big" "doc"
    "hello" "bye" s1c4 s2c4 2 30 1 (String.mk (List.replicate 2100 'x'))
    (by
      rw [String.length_mk, List.length_replicate]
      norm_num [defaultChunkingConfig])
    (by decide) (by decide) (by decide) (by decide)

/-! ## Claim C5: dropping of tiny declarations -/

def treeC5 : List PyStmt :=
  [.importStmt "import os", .funcDef "f" "def f(): pass" 2]

set_option maxRecDepth 2048 in
/-- C5 counterexample: in a file holding one import and one function shorter
than the minimum chunk size, the function is dropped even though the file
produced no larger chunk — the only output chunk is the `script` chunk
`"import os\n"`, itself below the minimum size, and the function's text
survives in no chunk. -/
theorem tiny_function_dropped_counterexample :
    chunkPython defaultChunkingConfig "import os\ndef f(): pass" treeC5
        "t.py" = [createChunk "import os\n" "t.py" "script" "main" 1 ""] ∧
    (∀ c ∈ chunkPython defaultChunkingConfig "import os\ndef f(): pass"
        treeC5 "t.py", c.content.length < defaultChunkingConfig.minChunkSize) ∧
    (∀ c ∈ chunkPython defaultChunkingConfig "import os\ndef f(): pass"
        treeC5 "t.py",
      ¬ List.IsInfix ("def f(): pass".data) c.content.data) := by
  refine ⟨?_, ?_, ?_⟩ <;> decide

theorem splitLinesList_ne_nil (l : List Char) : splitLinesList l ≠ [] := by
  cases l with
  | nil => simp [splitLinesList]
  | cons c cs =>
    simp only [splitLinesList]
    cases splitLinesList cs with
    | nil => simp
    | cons y ys =>
      by_cases hc : c = '\n'
      · simp [hc]
      · simp [hc]

theorem intercalate_go_append (a b s : String) (l : List String) :
    String.intercalate.go (a ++ b) s l = a ++ String.intercalate.go b s l := by
  induction l generalizing b with
  | nil => rfl
  | cons x xs ih =>
    rw [String.intercalate.go, String.intercalate.go,
      String.append_assoc a b s, String.append_assoc a (b ++ s) x]
    exact ih (b ++ s ++ x)

/-- Re-joining Python's `split('\n')` with `"\n".join` gives back the
string: the fallback line windows preserve the file content exactly. -/
theorem intercalate_pySplitLines (s : String) :
    String.intercalate "\n" (pySplitLines s) = s := by
  have main : ∀ l : List Char,
      String.intercalate "\n" ((splitLinesList l).map String.mk) =
        String.mk l := by
    intro l
    induction l with
    | nil => rfl
    | cons c cs ih =>
      cases h : splitLinesList cs with
      | nil => exact absurd h (splitLinesList_ne_nil cs)
      | cons y ys =>
        rw [h] at ih
        have ihgo : String.intercalate.go (String.mk y) "\n"
            (ys.map String.mk) = String.mk cs := ih
        have hsplit : splitLinesList (c :: cs) =
            if c = '\n' then [] :: y :: ys else (c :: y) :: ys := by
          rw [splitLinesList, h]
        by_cases hc : c = '\n'
        · subst hc
          rw [hsplit, if_pos rfl]
          show String.intercalate.go (String.mk []) "\n"
            (String.mk y :: ys.map String.mk) = String.mk ('\n' :: cs)
          rw [String.intercalate.go]
          have harg : String.mk [] ++ "\n" ++ String.mk y =
              String.mk ['\n'] ++ String.mk y := rfl
          rw [harg, intercalate_go_append, ihgo]
          rfl
        · rw [hsplit, if_neg hc]
          show String.intercalate.go (String.mk (c :: y)) "\n"
            (ys.map String.mk) = String.mk (c :: cs)
          have harg : String.mk (c :: y) = String.mk [c] ++ String.mk y := rfl
          rw [harg, intercalate_go_append, ihgo]
          rfl
  cases s with
  | mk data => exact main data

/-- C5 (amended): a top-level function shorter than the minimum chunk size
is always dropped from the declaration chunks; its text is preserved only
when the whole file produces no other chunk, in which case `_chunk_python`
re-emits the entire file content through the line-window fallback — in
particular, when such declarations are the only statements of the file, the
file's lines (the declaration text included) come back as `text_chunk`
output, in one chunk when the file fits one window. -/
theorem tiny_function_only_content_fallback (cfg : ChunkingConfig)
    (content file : String) (tree : List PyStmt)
    (hall : ∀ n ∈ tree, ∃ name src lineno,
      n = PyStmt.funcDef name src lineno ∧ src.length < cfg.minChunkSize)
    (hcontent : pyStrip content ≠ "") :
    chunkPython cfg content tree file = fallbackChunking cfg content file ∧
    (0 < cfg.fallbackLineSize →
      (pySplitLines content).length ≤ cfg.fallbackLineSize →
      (chunkPython cfg content tree file).map Chunk.content = [content]) := by
  have hi : pyImports tree = [] := by
    rw [pyImports, List.filterMap_eq_nil_iff]
    intro n hn
    obtain ⟨nm, src, ln, rfl, _⟩ := hall n hn
    rfl
  have ho : pyOthers tree = [] := by
    rw [pyOthers, List.filterMap_eq_nil_iff]
    intro n hn
    obtain ⟨nm, src, ln, rfl, _⟩ := hall n hn
    rfl
  have hcl : pyDeclChunks cfg file tree = [] := by
    rw [pyDeclChunks, List.flatMap_eq_nil_iff]
    intro n hn
    obtain ⟨nm, src, ln, rfl, hlen⟩ := hall n hn
    have hno : ¬ (src ≠ "" ∧ cfg.minChunkSize ≤ src.length) := by
      rintro ⟨_, h2⟩
      omega
    simp [hno]
  have hic : String.intercalate "\n" ([] : List String) = "" := rfl
  have htr : pyStrip "" = "" := rfl
  have hfb : chunkPython cfg content tree file =
      fallbackChunking cfg content file := by
    simp [chunkPython, classifyPy_eq, hi, ho, hcl, hic, htr, hcontent]
  refine ⟨hfb, ?_⟩
  intro hszpos hlen
  rw [hfb, fallbackChunking]
  obtain ⟨l, ls, hls⟩ : ∃ l ls, pySplitLines content = l :: ls := by
    cases hsp : pySplitLines content with
    | nil =>
      rw [pySplitLines] at hsp
      exact absurd (List.map_eq_nil_iff.mp hsp)
        (splitLinesList_ne_nil content.data)
    | cons l ls => exact ⟨l, ls, rfl⟩
  have hjoin : String.intercalate "\n" (l :: ls) = content := by
    rw [← hls]
    exact intercalate_pySplitLines content
  rw [hls] at hlen ⊢
  rw [List.length_cons, fallbackLoop,
    if_neg (by omega : ¬ cfg.fallbackLineSize = 0)]
  have hdl : (l :: ls).drop cfg.fallbackLineSize = [] :=
    List.drop_eq_nil_of_le hlen
  have htk : (l :: ls).take cfg.fallbackLineSize = l :: ls :=
    List.take_of_length_le hlen
  rw [hdl, htk]
  simp only [fallbackLoop, List.map_cons, List.map_nil, createChunk, hjoin]

set_option maxRecDepth 2048 in
/-- Witness for C5 (amended) at a concrete input: a file whose only
statement is a 13-character function. -/
theorem tiny_function_only_content_fallback_witness :
    chunkPython defaultChunkingConfig "def f(): pass"
        [.funcDef "f" "def f(): pass" 1] "t.py" =
      fallbackChunking defaultChunkingConfig "def f(): pass" "t.py" ∧
    (chunkPython defaultChunkingConfig "def f(): pass"
        [.funcDef "f" "def f(): pass" 1] "t.py").map Chunk.content =
      ["def f(): pass"] :=
  have h := tiny_function_only_content_fallback defaultChunkingConfig
    "def f(): pass" "t.py" [.funcDef "f" "def f(): pass" 1]
    (by
      intro n hn
      rw [List.mem_singleton] at hn
      exact ⟨"f", "def f(): pass", 1, hn, by decide⟩)
    (by decide)
  ⟨h.1, h.2 (by decide) (by decide)⟩

/-! ## Claim C6: reconstruction of the input from the chunks -/

def fsrc6 : String :=
  "def calculate(total, price):\n    result = total * price\n    return result"

def treeC6 : List PyStmt :=
  [.funcDef "calculate" fsrc6 1, .funcDef "g" "def g(): pass" 9]

set_option maxRecDepth 2048 in
/-- C6 counterexample: in a file whose two top-level functions both fit the
maximum chunk size, the second (13 characters, below the minimum chunk
size) is silently dropped — its bytes appear in no output chunk, so
re-concatenating the chunks' non-header text cannot reconstruct the
program. -/
theorem chunker_drops_bytes_counterexample :
    fsrc6.length ≤ defaultChunkingConfig.maxChunkSize ∧
    ("def g(): pass" : String).length ≤ defaultChunkingConfig.maxChunkSize ∧
    chunkPython defaultChunkingConfig
        (fsrc6 ++ "\n\n\n\n\n\n\n\ndef g(): pass") treeC6 "t.py" =
      [createChunk fsrc6 "t.py" "function" "calculate" 1 ""] ∧
    (∀ c ∈ chunkPython defaultChunkingConfig
        (fsrc6 ++ "\n\n\n\n\n\n\n\ndef g(): pass") treeC6 "t.py",
      ¬ List.IsInfix ("def g(): pass".data) c.content.data) := by
  refine ⟨?_, ?_, ?_, ?_⟩ <;> decide

/-- C6 (amended): for a parsed file containing at least one declaration
chunk, whose classes each fit the maximum chunk size and whose functions
each reach the minimum chunk size, the chunker's output is exactly an
optional standalone `global_context` chunk followed by one chunk per
declaration in order, each equal to one shared context header followed by
the declaration's exact source text; stripping that shared header therefore
recovers every declaration source exactly once, and the kept top-level
statements are exactly partitioned (as a permutation) into header imports,
the globals blob, and the declaration chunk bodies — no code bytes are
dropped or duplicated beyond the injected context. -/
theorem chunker_reconstruction (cfg : ChunkingConfig) (content file : String)
    (tree : List PyStmt) (hdecl : ∀ n ∈ tree, declOk cfg n)
    (hcore : pyDeclChunks cfg file tree ≠ []) :
    chunkPython cfg content tree file =
      pyGlobalOverflow cfg file tree ++
        (pyDeclChunks cfg file tree).map
          (fun c => { c with content := pyContextHeader cfg tree ++ c.content }) ∧
    (pyDeclChunks cfg file tree).map Chunk.content = declSources cfg tree ∧
    (pyImports tree ++ pyOthers tree ++ declSources cfg tree).Perm
      (keptSources cfg tree) :=
  ⟨chunkPython_decl_eq cfg content file tree hcore,
    pyDeclChunks_content cfg file tree hdecl, sources_perm cfg tree⟩

def treeC6w : List PyStmt :=
  [.importStmt "import os", .funcDef "calculate" fsrc6 2]

set_option maxRecDepth 2048 in
/-- Witness for C6 (amended) at a concrete input: one import plus one
adequately sized function. -/
theorem chunker_reconstruction_witness :
    chunkPython defaultChunkingConfig ("import os\n" ++ fsrc6) treeC6w
        "t.py" =
      pyGlobalOverflow defaultChunkingConfig "t.py" treeC6w ++
        (pyDeclChunks defaultChunkingConfig "t.py" treeC6w).map
          (fun c =>
            { c with content :=
                pyContextHeader defaultChunkingConfig treeC6w ++ c.content }) ∧
    (pyDeclChunks defaultChunkingConfig "t.py" treeC6w).map Chunk.content =
      declSources defaultChunkingConfig treeC6w ∧
    (pyImports treeC6w ++ pyOthers treeC6w ++
      declSources defaultChunkingConfig treeC6w).Perm
      (keptSources defaultChunkingConfig treeC6w) :=
  chunker_reconstruction defaultChunkingConfig ("import os\n" ++ fsrc6)
    "t.py" treeC6w
    (by
      intro n hn
      rw [treeC6w, List.mem_cons, List.mem_singleton] at hn
      rcases hn with rfl | rfl
      · exact trivial
      · exact ⟨by decide, by decide⟩)
    (by decide)

/-! ## Claim C7: `embed_batch` alignment on partial batch failure

The failing input: 51 texts with batch size 50.  The first batch (texts
0-49) fails, the second (text 50) succeeds.  `sorted(results, key=...)`
keys failures by `float('inf')`, so the surviving batch's embeddings are
placed FIRST: text 0, which failed, receives the embedding of text 50, and
text 50, which succeeded, receives an empty vector.  This contradicts the
function's own docstring ("与输入顺序一致 / 失败的文本对应空列表") and the
spec. -/

def textsC7 : List String := List.replicate 50 "a" ++ ["b"]

def outcomeC7 : Nat → List String → Option (List (List ℚ)) :=
  fun i _ => if i = 0 then none else some [[7]]

set_option maxRecDepth 2048 in
/-- C7 (code bug): on a partial batch failure, `embed_batch` returns a list
of the right length but misaligned — the entry at a failed text's position
is another text's embedding, not the empty vector, and a successful text's
entry can be empty. -/
theorem embed_batch_misplaces_failed_entries :
    (embedBatch defaultEmbeddingConfig outcomeC7 textsC7).length =
      textsC7.length ∧
    outcomeC7 0 (textsC7.take 50) = none ∧
    (embedBatch defaultEmbeddingConfig outcomeC7 textsC7)[0]? =
      some [(7 : ℚ)] ∧
    (embedBatch defaultEmbeddingConfig outcomeC7 textsC7)[50]? =
      some [] := by
  refine ⟨?_, ?_, ?_, ?_⟩ <;> decide

/-! ## Claim C9: the repo lock guard -/

def lockTable0 : LockTable := fun _ => false

/-- C9: used as a guard around a body, `RepoLock.acquire` (memory backend)
raises a timeout error exactly when the backend did not acquire the lock
within the timeout (`acquiredInTime` is the outcome of the
`asyncio.wait_for` wait); when the lock was acquired, the backend lock for
the key is released once the guard's scope ends — on normal completion and
on a raising body alike — and the body's outcome is propagated unchanged. -/
theorem repo_lock_timeout_iff_and_release {E α : Type}
    (acquiredInTime : Bool) (t : LockTable) (key : String)
    (body : Except E α) :
    ((repoLockAcquireRun acquiredInTime t key body).1 =
        Except.error LockErr.timeout ↔ acquiredInTime = false) ∧
    (acquiredInTime = true →
      (repoLockAcquireRun acquiredInTime t key body).2 key = false ∧
      (repoLockAcquireRun acquiredInTime t key body).1 =
        (match body with
          | .ok a => .ok a
          | .error e => .error (.body e))) := by
  constructor
  · cases acquiredInTime with
    | false => simp [repoLockAcquireRun]
    | true =>
      cases body with
      | ok a => simp [repoLockAcquireRun]
      | error e => simp [repoLockAcquireRun]
  · intro h
    subst h
    cases body with
    | ok a =>
      exact ⟨by simp [repoLockAcquireRun, memRelease], rfl⟩
    | error e =>
      exact ⟨by simp [repoLockAcquireRun, memRelease], rfl⟩

/-- Witness for C9 at a concrete input: a raising body under an acquired
lock. -/
theorem repo_lock_timeout_iff_and_release_witness :
    ((repoLockAcquireRun true lockTable0 "repo"
        (Except.error "boom" : Except String Nat)).1 =
      Except.error LockErr.timeout ↔ true = false) ∧
    ((repoLockAcquireRun true lockTable0 "repo"
        (Except.error "boom" : Except String Nat)).2 "repo" = false ∧
      (repoLockAcquireRun true lockTable0 "repo"
        (Except.error "boom" : Except String Nat)).1 =
        Except.error (LockErr.body "boom")) :=
  ⟨(repo_lock_timeout_iff_and_release true lockTable0 "repo"
      (Except.error "boom")).1,
    (repo_lock_timeout_iff_and_release true lockTable0 "repo"
      (Except.error "boom")).2 rfl⟩

end RepoReaper
